import Mathlib

/-!
Shallow embedding of the seam-carving core of the `simp` image tool
(`src/pixel_utils.rs`, `src/energy_utils.rs`, `src/image_utils.rs`),
together with proofs about it.

Pixel matrices and energy matrices are modelled as total functions from
coordinates (row, column); the dimensions are carried separately, exactly
as `DMatrix::nrows`/`ncols` are consulted by the Rust code.  Imperative
loops are modelled as left folds over the corresponding index ranges, and
an in-place write `m[(i, j)] = v` as a functional update `setM`.
-/

/-- A pixel: three 8-bit channels (`pixel_utils.rs`, `struct Pixel`). -/
structure Pixel where
  red : Fin 256
  green : Fin 256
  blue : Fin 256
deriving DecidableEq

/-- Rust's `Pixel::color_diff`: per-channel differences are taken in `i32`,
squared, summed, and the result is cast `as u32`; the cast is modelled by
`% 2 ^ 32` (the claim `C9` proves the sum never reaches that modulus). -/
def color_diff (pixel1 pixel2 : Pixel) : Nat :=
  let red_diff : Int := (pixel1.red.val : Int) - (pixel2.red.val : Int)
  let green_diff : Int := (pixel1.green.val : Int) - (pixel2.green.val : Int)
  let blue_diff : Int := (pixel1.blue.val : Int) - (pixel2.blue.val : Int)
  ((red_diff * red_diff + green_diff * green_diff + blue_diff * blue_diff) % (2 : Int) ^ 32).toNat

/-- Rust's `Pixel::invert`: each channel `c` becomes `255 - c` (no underflow since
`c ≤ 255`). -/
def Pixel.invert (p : Pixel) : Pixel :=
  ⟨⟨255 - p.red.val, by omega⟩, ⟨255 - p.green.val, by omega⟩, ⟨255 - p.blue.val, by omega⟩⟩

/-- An energy matrix (`DMatrix<u32>`), as a total function on coordinates. -/
abbrev Mat := Nat → Nat → Nat

/-- An image: the pixel matrix with its dimensions (`image_utils.rs`,
`struct Image`; the PPM header fields are irrelevant to the carving core). -/
structure Image where
  nrows : Nat
  ncols : Nat
  pixels : Nat → Nat → Pixel

/-- A single in-place write `m[(i, j)] = v`. -/
def setM (m : Mat) (i j v : Nat) : Mat :=
  fun a b => if a = i ∧ b = j then v else m a b

/-- The transposed image (used to relate the horizontal-orientation
routines to their vertical counterparts, of which they are transposes). -/
def transposeImage (image : Image) : Image :=
  { nrows := image.ncols, ncols := image.nrows, pixels := Function.swap image.pixels }

/-- Replace the single pixel at `(r, c)`. -/
def updatePixel (image : Image) (r c : Nat) (p : Pixel) : Image :=
  { image with pixels := fun a b => if a = r ∧ b = c then p else image.pixels a b }

/-- Loop body of the `Calculation of total energy` pass of
`calculate_vertical_energy_matrix`, for row `i`, column `j`
(`above = (i-1, j)`, `left = (i-1, j-1)`, `right = (i-1, j+1)`). -/
def totalVStep (border i : Nat) (e : Mat) (j : Nat) : Mat :=
  if j = 0 then
    setM e i j (e i j + min (e (i - 1) j) (e (i - 1) (j + 1)))
  else if j = border - 1 then
    setM e i j (e i j + min (e (i - 1) j) (e (i - 1) (j - 1)))
  else
    setM e i j (e i j + min (min (e (i - 1) j) (e (i - 1) (j - 1))) (e (i - 1) (j + 1)))

/-- Local-energy loop `Edge Case: First Row` of
`calculate_vertical_energy_matrix`: `for j in 1..border`. -/
def vertFirstRowPass (image : Image) (border : Nat) (e : Mat) : Mat :=
  (List.range' 1 (border - 1)).foldl
    (fun e j => setM e 0 j (color_diff (image.pixels 0 j) (image.pixels 0 (j - 1)))) e

/-- Local-energy loop `Edge Case: Left Border` of
`calculate_vertical_energy_matrix`: `for i in 1..nrows`. -/
def vertLeftBorderPass (image : Image) (e : Mat) : Mat :=
  (List.range' 1 (image.nrows - 1)).foldl
    (fun e i => setM e i 0 (color_diff (image.pixels i 0) (image.pixels (i - 1) 0))) e

/-- Local-energy loop `No Edge Cases` of
`calculate_vertical_energy_matrix`: `for i in 1..nrows`, `for j in 1..border`. -/
def vertInnerPass (image : Image) (border : Nat) (e : Mat) : Mat :=
  (List.range' 1 (image.nrows - 1)).foldl
    (fun e i => (List.range' 1 (border - 1)).foldl
      (fun e j => setM e i j (color_diff (image.pixels i j) (image.pixels i (j - 1)) +
        color_diff (image.pixels i j) (image.pixels (i - 1) j))) e) e

/-- The `Calculation of total energy` loop of
`calculate_vertical_energy_matrix`: `for i in 1..nrows`, `for j in 0..border`. -/
def vertTotalPass (image : Image) (border : Nat) (e : Mat) : Mat :=
  (List.range' 1 (image.nrows - 1)).foldl
    (fun e i => (List.range border).foldl (totalVStep border i) e) e

/-- Rust's `calculate_vertical_energy_matrix`: `energy[(0,0)] = 0`,
the three local passes, then the cumulative pass.  The Rust function
mutates a preallocated matrix; here the input matrix is `energy` and the
returned matrix is the final state.  Cells outside the written region keep
their previous values, exactly as in the Rust code. -/
def calculate_vertical_energy_matrix (image : Image) (energy : Mat) (border : Nat) : Mat :=
  vertTotalPass image border
    (vertInnerPass image border
      (vertLeftBorderPass image
        (vertFirstRowPass image border (setM energy 0 0 0))))

/-- Loop body of the `Calculation of total energy` pass of
`calculate_horizontal_energy_matrix`, for column `i`, row `j`
(`lower = (j, i-1)`, `left = (j-1, i-1)`, `right = (j+1, i-1)`). -/
def totalHStep (border i : Nat) (e : Mat) (j : Nat) : Mat :=
  if j = 0 then
    setM e j i (e j i + min (e j (i - 1)) (e (j + 1) (i - 1)))
  else if j = border - 1 then
    setM e j i (e j i + min (e j (i - 1)) (e (j - 1) (i - 1)))
  else
    setM e j i (e j i + min (min (e j (i - 1)) (e (j - 1) (i - 1))) (e (j + 1) (i - 1)))

/-- Local-energy loop `Edge Case: First Column` of
`calculate_horizontal_energy_matrix`: `for j in 1..border`. -/
def horizFirstColPass (image : Image) (border : Nat) (e : Mat) : Mat :=
  (List.range' 1 (border - 1)).foldl
    (fun e j => setM e j 0 (color_diff (image.pixels j 0) (image.pixels (j - 1) 0))) e

/-- Local-energy loop `Edge Case: First Row` of
`calculate_horizontal_energy_matrix`: `for i in 1..ncols`. -/
def horizFirstRowPass (image : Image) (e : Mat) : Mat :=
  (List.range' 1 (image.ncols - 1)).foldl
    (fun e i => setM e 0 i (color_diff (image.pixels 0 i) (image.pixels 0 (i - 1)))) e

/-- Local-energy loop `No Edge Cases` of
`calculate_horizontal_energy_matrix`: `for i in 1..ncols`, `for j in 1..border`. -/
def horizInnerPass (image : Image) (border : Nat) (e : Mat) : Mat :=
  (List.range' 1 (image.ncols - 1)).foldl
    (fun e i => (List.range' 1 (border - 1)).foldl
      (fun e j => setM e j i (color_diff (image.pixels j i) (image.pixels (j - 1) i) +
        color_diff (image.pixels j i) (image.pixels j (i - 1)))) e) e

/-- The `Calculation of total energy` loop of
`calculate_horizontal_energy_matrix`: `for i in 1..ncols`, `for j in 0..border`. -/
def horizTotalPass (image : Image) (border : Nat) (e : Mat) : Mat :=
  (List.range' 1 (image.ncols - 1)).foldl
    (fun e i => (List.range border).foldl (totalHStep border i) e) e

/-- Rust's `calculate_horizontal_energy_matrix`. -/
def calculate_horizontal_energy_matrix (image : Image) (energy : Mat) (border : Nat) : Mat :=
  horizTotalPass image border
    (horizInnerPass image border
      (horizFirstRowPass image
        (horizFirstColPass image border (setM energy 0 0 0))))

/-- Rust's `calculate_min_energy_column`; `nrows` is
`energy.nrows()`, passed explicitly. -/
def calculate_min_energy_column (energy : Mat) (nrows border : Nat) : Nat :=
  (List.range' 1 (border - 1)).foldl
    (fun column i => if energy (nrows - 1) column > energy (nrows - 1) i then i else column) 0

/-- One backward step of `calculate_optimal_vertical_path`: from position
`c` in row `j`, the position chosen in row `j - 1`
(`left = (j-1, c-1)`, `above = (j-1, c)`, `right = (j-1, c+1)`). -/
def traceStep (energy : Mat) (border j c : Nat) : Nat :=
  let left := energy (j - 1) (c - 1)
  let above := energy (j - 1) c
  let right := energy (j - 1) (c + 1)
  if c = 0 then
    -- Case: Left border
    if above ≤ right then c else c + 1
  else if c = border - 1 then
    -- Case: Right Border
    if above ≤ left then c else c - 1
  else if above = left then
    -- Precedence for multiple optimal pixels
    if above ≤ right then c else c + 1
  else if above ≤ right then
    if above ≤ left then c else c - 1
  else
    -- Remainder
    if left < above ∧ left ≤ right then c - 1
    else if above < left ∧ above ≤ right then c
    else c + 1

/-- The backward walk of `calculate_optimal_vertical_path`: the seam vector
is modelled as a function state; iteration `j` writes index `j - 1` from
index `j`, for `j` from `n` down to `1`. -/
def traceFold (energy : Mat) (border : Nat) (s0 : Nat → Nat) (n : Nat) : Nat → Nat :=
  ((List.range' 1 n).reverse).foldl
    (fun s j => fun k => if k = j - 1 then traceStep energy border j (s j) else s k) s0

/-- Rust's `calculate_optimal_vertical_path`; `nrows` is
`energy.nrows()`, passed explicitly.  The vector `vec![0; nrows]` with
`seam[nrows - 1] = start` is the initial state; the loop runs `j` from
`nrows - 1` down to `1`. -/
def calculate_optimal_vertical_path (energy : Mat) (nrows border start : Nat) : List Nat :=
  (List.range nrows).map
    (traceFold energy border (fun k => if k = nrows - 1 then start else 0) (nrows - 1))

/-- One backward step of `calculate_optimal_horizontal_path`
(`left = (c-1, j-1)`, `above = (c, j-1)`, `right = (c+1, j-1)`). -/
def horizTraceStep (energy : Mat) (border j c : Nat) : Nat :=
  let left := energy (c - 1) (j - 1)
  let above := energy c (j - 1)
  let right := energy (c + 1) (j - 1)
  if c = 0 then
    if above ≤ right then c else c + 1
  else if c = border - 1 then
    if above ≤ left then c else c - 1
  else if above = left then
    if above ≤ right then c else c + 1
  else if above ≤ right then
    if above ≤ left then c else c - 1
  else
    if left < above ∧ left ≤ right then c - 1
    else if above < left ∧ above ≤ right then c
    else c + 1

/-- The backward walk of `calculate_optimal_horizontal_path`. -/
def horizTraceFold (energy : Mat) (border : Nat) (s0 : Nat → Nat) (n : Nat) : Nat → Nat :=
  ((List.range' 1 n).reverse).foldl
    (fun s j => fun k => if k = j - 1 then horizTraceStep energy border j (s j) else s k) s0

/-- Rust's `calculate_optimal_horizontal_path`; `ncols` is
`energy.ncols()`, passed explicitly. -/
def calculate_optimal_horizontal_path (energy : Mat) (ncols border start : Nat) : List Nat :=
  (List.range ncols).map
    (horizTraceFold energy border (fun k => if k = ncols - 1 then start else 0) (ncols - 1))

/-- Rust's `carve_vertical_path`: in every row `j`, the pixels at columns
`seam[j] .. border - 2` are overwritten channel-by-channel by their right
neighbours (closing the gap at the seam). -/
def carve_vertical_path (image : Image) (border : Nat) (seam : List Nat) : Image :=
  let px' :=
    (List.range image.nrows).foldl
      (fun px j =>
        (List.range' (seam.getD j 0) (border - 1 - seam.getD j 0)).foldl
          (fun px i => fun a b =>
            if a = j ∧ b = i then
              ⟨(px j (i + 1)).red, (px j (i + 1)).green, (px j (i + 1)).blue⟩
            else px a b)
          px)
      image.pixels
  { image with pixels := px' }

/-- One iteration of the vertical branch of `Image::seam_carve`: with
state `(image, energy matrix, border)`, recompute the energy matrix — the
Rust code passes the constant `width` (the original column count), not the
current `border` — find the min-energy column, trace the seam, carve it,
and decrement `border`. -/
def carveStep (width nrows : Nat) (s : Image × Mat × Nat) : Image × Mat × Nat :=
  let energy := calculate_vertical_energy_matrix s.1 s.2.1 width
  let x := calculate_min_energy_column energy nrows s.2.2
  let seam := calculate_optimal_vertical_path energy nrows s.2.2 x
  (carve_vertical_path s.1 s.2.2 seam, energy, s.2.2 - 1)

/-- The state of `Image::seam_carve` (vertical branch) after `k` loop
iterations, starting from the zero-initialised energy matrix and
`border = ncols`. -/
def seam_carve_vertical_state (image : Image) (k : Nat) : Image × Mat × Nat :=
  (carveStep image.ncols image.nrows)^[k] (image, fun _ _ => 0, image.ncols)

/-- The energy matrix handed to `calculate_min_energy_column` and
`calculate_optimal_vertical_path` in iteration `k` of `seam_carve`:
computed, with the original full `width` as bound, over the image as
already carved `k` times, on top of the previous iteration's matrix. -/
def energyHandedV (image : Image) (k : Nat) : Mat :=
  calculate_vertical_energy_matrix (seam_carve_vertical_state image k).1
    (seam_carve_vertical_state image k).2.1 image.ncols

/-- Modelled from the spec (claim `C4`): the trace-step decision table as
the spec states it, with predecessor energies `L` at `c-1`, `A` at `c`,
`R` at `c+1`; `A dictates stay`, `L` step left, `R` step right. -/
def specChoice (border c : Nat) (L A R : Nat) : Nat :=
  if c = 0 then
    if A ≤ R then c else c + 1
  else if c = border - 1 then
    if A ≤ L then c else c - 1
  else if A = L then
    if A ≤ R then c else c + 1
  else if A ≤ R then
    if A ≤ L then c else c - 1
  else
    if L < A ∧ L ≤ R then c - 1
    else if A < L ∧ A ≤ R then c
    else c + 1

/-- The local (non-cumulative) energy written by the three local passes of
`calculate_vertical_energy_matrix` at cell `(i, j)` of the written region. -/
def localE (image : Image) (i j : Nat) : Nat :=
  if i = 0 ∧ j = 0 then 0
  else if i = 0 then color_diff (image.pixels 0 j) (image.pixels 0 (j - 1))
  else if j = 0 then color_diff (image.pixels i 0) (image.pixels (i - 1) 0)
  else color_diff (image.pixels i j) (image.pixels i (j - 1)) +
       color_diff (image.pixels i j) (image.pixels (i - 1) j)

/-- The matrix after the three local passes of
`calculate_vertical_energy_matrix`: written cells hold `localE`, all
others keep the input matrix's value. -/
def localPass (image : Image) (e0 : Mat) (border : Nat) : Mat :=
  fun a b =>
    if (a = 0 ∧ b = 0) ∨ (a = 0 ∧ b < border) ∨
       (0 < a ∧ a < image.nrows ∧ (b = 0 ∨ b < border)) then localE image a b
    else e0 a b

/-- The predecessor minimum added by the cumulative pass at column `b`,
read from the previous row `prev` (three predecessors in the interior, two
at the edges of the active band, mirroring `totalVStep`). -/
def mintermM (prev : Nat → Nat) (border b : Nat) : Nat :=
  if b = 0 then min (prev b) (prev (b + 1))
  else if b = border - 1 then min (prev b) (prev (b - 1))
  else min (min (prev b) (prev (b - 1))) (prev (b + 1))

/-- Cell-level recurrence satisfied by the final matrix of
`calculate_vertical_energy_matrix` (proved below as `vertical_energy_eq`):
row 0 holds local energies inside the border, deeper rows add the minimum
cumulative energy of the up-to-three predecessors, and cells outside the
written region keep their input values. -/
def energyRec (image : Image) (e0 : Mat) (border : Nat) : Nat → Nat → Nat
  | 0, j =>
    if j = 0 then 0
    else if j < border then localE image 0 j
    else e0 0 j
  | i + 1, j =>
    if i + 1 < image.nrows then
      if j < border then
        localE image (i + 1) j + mintermM (energyRec image e0 border i) border j
      else if j = 0 then localE image (i + 1) 0
      else e0 (i + 1) j
    else e0 (i + 1) j

/-- Adjacency of two seam entries: they differ by at most one. -/
def adjStep (a b : Nat) : Prop := a ≤ b + 1 ∧ b ≤ a + 1

/-- Total local energy of a path whose entries are the column positions in
rows `k, k + 1, …`. -/
def pathCost (image : Image) : Nat → List Nat → Nat
  | _, [] => 0
  | k, c :: rest => localE image k c + pathCost image (k + 1) rest

/-- A valid monotone path for rows `0 .. i` ending at column `j`: one
entry per row, all entries inside `[0, border)`, consecutive entries
differing by at most one. -/
def ValidPathTo (border i j : Nat) (p : List Nat) : Prop :=
  p.length = i + 1 ∧ (∀ x ∈ p, x < border) ∧ List.Chain' adjStep p ∧ p.getLast? = some j

/-- Claim `C3`, vertical instance: the last-row cell `(nrows - 1, j)` of
the computed energy matrix is the minimum total local energy over all
valid paths ending there. -/
def VertMinProp (image : Image) (e0 : Mat) (border j : Nat) : Prop :=
  (∀ p, ValidPathTo border (image.nrows - 1) j p →
      calculate_vertical_energy_matrix image e0 border (image.nrows - 1) j ≤
        pathCost image 0 p) ∧
  (∃ p, ValidPathTo border (image.nrows - 1) j p ∧
      pathCost image 0 p =
        calculate_vertical_energy_matrix image e0 border (image.nrows - 1) j)

/-- Claim `C3`, horizontal instance: the last-column cell
`(j, ncols - 1)`, with paths read in transposed coordinates. -/
def HorizMinProp (image : Image) (e0 : Mat) (border j : Nat) : Prop :=
  (∀ p, ValidPathTo border (image.ncols - 1) j p →
      calculate_horizontal_energy_matrix image e0 border j (image.ncols - 1) ≤
        pathCost (transposeImage image) 0 p) ∧
  (∃ p, ValidPathTo border (image.ncols - 1) j p ∧
      pathCost (transposeImage image) 0 p =
        calculate_horizontal_energy_matrix image e0 border j (image.ncols - 1))

/-- The tuple indices formed by one vertical trace step (`let left`,
`let above`, `let right`), as integers: in Rust these are `usize`
subtractions, so a negative component is an underflow. -/
def traceStepFormed (j c : Nat) : List (Int × Int) :=
  [((j : Int) - 1, (c : Int) - 1), ((j : Int) - 1, (c : Int)), ((j : Int) - 1, (c : Int) + 1)]

/-- The matrix cells actually read by one vertical trace step, per branch:
at the left border `above` and `right`, at the right border `above` and
`left`, otherwise all three. -/
def traceStepReads (border j c : Nat) : List (Nat × Nat) :=
  if c = 0 then [(j - 1, c), (j - 1, c + 1)]
  else if c = border - 1 then [(j - 1, c), (j - 1, c - 1)]
  else [(j - 1, c), (j - 1, c - 1), (j - 1, c + 1)]

/-- The matrix cells read by one horizontal trace step (transposed). -/
def horizTraceStepReads (border j c : Nat) : List (Nat × Nat) :=
  if c = 0 then [(c, j - 1), (c + 1, j - 1)]
  else if c = border - 1 then [(c, j - 1), (c - 1, j - 1)]
  else [(c, j - 1), (c - 1, j - 1), (c + 1, j - 1)]

/-- Safety of one vertical trace step at row `j`, position `c` (claim
`C8` as stated): every formed index pair lies inside the grid (in
particular is non-negative), and every read is in bounds. -/
def SafeStep (nrows ncols border j c : Nat) : Prop :=
  (∀ q ∈ traceStepFormed j c,
      0 ≤ q.1 ∧ q.1 < (nrows : Int) ∧ 0 ≤ q.2 ∧ q.2 < (ncols : Int)) ∧
  (∀ q ∈ traceStepReads border j c, q.1 < nrows ∧ q.2 < ncols)

/-- Claim `C8` as stated, for the vertical trace: every step along the
traced seam is safe. -/
def TraceSafeV (e : Mat) (nrows ncols border start : Nat) : Prop :=
  ∀ j, 1 ≤ j → j < nrows →
    SafeStep nrows ncols border j
      ((calculate_optimal_vertical_path e nrows border start).getD j 0)

/-- A red-channel-only pixel. -/
def redPix (v : Fin 256) : Pixel := ⟨v, 0, 0⟩

/-- Concrete 3x3 image for claim `C1`: red channel
`[[0,0,5],[0,10,5],[0,0,5]]`. -/
def imgC1 : Image :=
  { nrows := 3, ncols := 3,
    pixels := fun i j =>
      redPix (if i = 1 then (if j = 0 then 0 else if j = 1 then 10 else 5)
              else (if j = 2 then 5 else 0)) }

/-- Concrete 2x2 image for claim `C2`: red channel `[[0,7],[0,7]]`. -/
def imgC2 : Image :=
  { nrows := 2, ncols := 2, pixels := fun _ j => redPix (if j = 0 then 0 else 7) }

/-- Concrete 3x2 image for claim `C3`: row 0 black, rows 1 and 2 white. -/
def imgC3 : Image :=
  { nrows := 3, ncols := 2,
    pixels := fun i _ => if i = 0 then ⟨0, 0, 0⟩ else ⟨255, 255, 255⟩ }

/-- Concrete energy matrix for claim `C6`: `e 0 0 = 1`, zero elsewhere. -/
def eC6 : Mat := fun i j => if i = 0 ∧ j = 0 then 1 else 0

/-! ### Basic facts about matrix writes and the trace fold -/

theorem setM_apply (m : Mat) (i j v a b : Nat) :
    setM m i j v a b = if a = i ∧ b = j then v else m a b := rfl

theorem horizontal_path_eq_swap (e : Mat) (n border start : Nat) :
    calculate_optimal_horizontal_path e n border start =
      calculate_optimal_vertical_path (Function.swap e) n border start := rfl

theorem traceFold_spec (e : Mat) (border : Nat) :
    ∀ (n : Nat) (s0 : Nat → Nat),
      (∀ k, n ≤ k → traceFold e border s0 n k = s0 k) ∧
      (∀ j, 1 ≤ j → j ≤ n →
        traceFold e border s0 n (j - 1) =
          traceStep e border j (traceFold e border s0 n j)) := by
  intro n
  induction n with
  | zero =>
    intro s0
    exact ⟨fun k _ => rfl, fun j h1 h2 => by omega⟩
  | succ n ih =>
    intro s0
    have hrange : (List.range' 1 (n + 1)).reverse = (n + 1) :: (List.range' 1 n).reverse := by
      rw [show List.range' 1 (n + 1) = List.range' 1 n ++ [1 + n] by
        rw [List.range'_concat]; norm_num]
      simp [Nat.add_comm]
    have hfold : traceFold e border s0 (n + 1) =
        traceFold e border
          (fun k => if k = n then traceStep e border (n + 1) (s0 (n + 1)) else s0 k) n := by
      unfold traceFold
      rw [hrange]
      rfl
    obtain ⟨ih1, ih2⟩ :=
      ih (fun k => if k = n then traceStep e border (n + 1) (s0 (n + 1)) else s0 k)
    constructor
    · intro k hk
      rw [hfold, ih1 k (by omega)]
      simp only [show k ≠ n by omega, if_false]
    · intro j h1 h2
      rcases Nat.lt_or_ge j (n + 1) with hj | hj
      · rw [hfold]
        exact ih2 j h1 (by omega)
      · have hj' : j = n + 1 := by omega
        subst hj'
        have hL : traceFold e border s0 (n + 1) (n + 1 - 1) =
            traceStep e border (n + 1) (s0 (n + 1)) := by
          rw [hfold]
          simpa using ih1 n le_rfl
        have hR : traceFold e border s0 (n + 1) (n + 1) = s0 (n + 1) := by
          rw [hfold, ih1 (n + 1) (by omega)]
          simp
        rw [hL, hR]

theorem vertical_path_length (e : Mat) (nrows border start : Nat) :
    (calculate_optimal_vertical_path e nrows border start).length = nrows := by
  simp [calculate_optimal_vertical_path]

theorem vertical_path_getD (e : Mat) (nrows border start k : Nat) (hk : k < nrows) :
    (calculate_optimal_vertical_path e nrows border start).getD k 0 =
      traceFold e border (fun i => if i = nrows - 1 then start else 0) (nrows - 1) k := by
  simp [calculate_optimal_vertical_path, List.getD_eq_getElem?_getD, List.getElem?_map,
    List.getElem?_range, hk]

theorem vertical_path_last (e : Mat) (nrows border start : Nat) (h : 1 ≤ nrows) :
    (calculate_optimal_vertical_path e nrows border start).getD (nrows - 1) 0 = start := by
  rw [vertical_path_getD e nrows border start (nrows - 1) (by omega)]
  rw [(traceFold_spec e border (nrows - 1) _).1 (nrows - 1) le_rfl]
  simp

theorem vertical_path_step (e : Mat) (nrows border start j : Nat)
    (h1 : 1 ≤ j) (h2 : j < nrows) :
    (calculate_optimal_vertical_path e nrows border start).getD (j - 1) 0 =
      traceStep e border j ((calculate_optimal_vertical_path e nrows border start).getD j 0) := by
  rw [vertical_path_getD e nrows border start (j - 1) (by omega),
    vertical_path_getD e nrows border start j h2]
  exact (traceFold_spec e border (nrows - 1) _).2 j h1 (by omega)

theorem traceStep_def (e : Mat) (border j c : Nat) :
    traceStep e border j c =
      if c = 0 then
        if e (j - 1) c ≤ e (j - 1) (c + 1) then c else c + 1
      else if c = border - 1 then
        if e (j - 1) c ≤ e (j - 1) (c - 1) then c else c - 1
      else if e (j - 1) c = e (j - 1) (c - 1) then
        if e (j - 1) c ≤ e (j - 1) (c + 1) then c else c + 1
      else if e (j - 1) c ≤ e (j - 1) (c + 1) then
        if e (j - 1) c ≤ e (j - 1) (c - 1) then c else c - 1
      else
        if e (j - 1) (c - 1) < e (j - 1) c ∧ e (j - 1) (c - 1) ≤ e (j - 1) (c + 1) then c - 1
        else if e (j - 1) c < e (j - 1) (c - 1) ∧ e (j - 1) c ≤ e (j - 1) (c + 1) then c
        else c + 1 := rfl

theorem traceStep_cases (e : Mat) (border j c : Nat) :
    traceStep e border j c = c - 1 ∨ traceStep e border j c = c ∨
      traceStep e border j c = c + 1 := by
  rw [traceStep_def]
  split_ifs <;> simp

theorem traceStep_lt (e : Mat) (border j c : Nat) (hb : 2 ≤ border) (hc : c < border) :
    traceStep e border j c < border := by
  rw [traceStep_def]
  split_ifs <;> omega

theorem traceStep_adj (e : Mat) (border j c : Nat) :
    adjStep (traceStep e border j c) c := by
  rcases traceStep_cases e border j c with h | h | h <;> rw [h] <;> exact ⟨by omega, by omega⟩

theorem vertical_path_entries (e : Mat) (nrows border start : Nat)
    (hn : 1 ≤ nrows) (hb : 2 ≤ border) (hs : start < border) :
    ∀ j, j < nrows → (calculate_optimal_vertical_path e nrows border start).getD j 0 < border := by
  have key : ∀ d j, j < nrows → nrows - 1 - j = d →
      (calculate_optimal_vertical_path e nrows border start).getD j 0 < border := by
    intro d
    induction d with
    | zero =>
      intro j hj hd
      have hje : j = nrows - 1 := by omega
      subst hje
      rw [vertical_path_last e nrows border start hn]
      exact hs
    | succ d ih =>
      intro j hj hd
      have hj1 : j + 1 < nrows := by omega
      have hstep := vertical_path_step e nrows border start (j + 1) (by omega) hj1
      simp only [Nat.add_sub_cancel] at hstep
      rw [hstep]
      exact traceStep_lt e border (j + 1) _ hb (ih (j + 1) hj1 (by omega))
  intro j hj
  exact key (nrows - 1 - j) j hj rfl

theorem vertical_path_mem_lt (e : Mat) (nrows border start : Nat)
    (hn : 1 ≤ nrows) (hb : 2 ≤ border) (hs : start < border) :
    ∀ x ∈ calculate_optimal_vertical_path e nrows border start, x < border := by
  intro x hx
  rw [List.mem_iff_getElem] at hx
  obtain ⟨k, hk, rfl⟩ := hx
  have hk' : k < nrows := by
    simpa [vertical_path_length] using hk
  have h := vertical_path_entries e nrows border start hn hb hs k hk'
  rwa [List.getD_eq_getElem?_getD, List.getElem?_eq_getElem hk, Option.getD_some] at h

/-! ### Claims C9, C10: pixel-level arithmetic -/

/-- Claim C9: `color_diff` computes exactly the sum of squared per-channel
differences — the `as u32` cast (the `% 2 ^ 32`) never truncates — the
result is bounded by `3 * 255 ^ 2 = 195075`, and every per-channel
difference lies in `-255 .. 255` before squaring. -/
theorem claim_C9_color_diff_exact (p q : Pixel) :
    ((color_diff p q : Int) =
      ((p.red.val : Int) - (q.red.val : Int)) ^ 2 +
      ((p.green.val : Int) - (q.green.val : Int)) ^ 2 +
      ((p.blue.val : Int) - (q.blue.val : Int)) ^ 2) ∧
    color_diff p q ≤ 3 * 255 ^ 2 ∧
    3 * 255 ^ 2 = 195075 ∧
    (-255 ≤ (p.red.val : Int) - (q.red.val : Int) ∧
      (p.red.val : Int) - (q.red.val : Int) ≤ 255) ∧
    (-255 ≤ (p.green.val : Int) - (q.green.val : Int) ∧
      (p.green.val : Int) - (q.green.val : Int) ≤ 255) ∧
    (-255 ≤ (p.blue.val : Int) - (q.blue.val : Int) ∧
      (p.blue.val : Int) - (q.blue.val : Int) ≤ 255) := by
  have hr1 := p.red.isLt
  have hr2 := q.red.isLt
  have hg1 := p.green.isLt
  have hg2 := q.green.isLt
  have hb1 := p.blue.isLt
  have hb2 := q.blue.isLt
  have hdr : -255 ≤ (p.red.val : Int) - (q.red.val : Int) ∧
      (p.red.val : Int) - (q.red.val : Int) ≤ 255 := by omega
  have hdg : -255 ≤ (p.green.val : Int) - (q.green.val : Int) ∧
      (p.green.val : Int) - (q.green.val : Int) ≤ 255 := by omega
  have hdb : -255 ≤ (p.blue.val : Int) - (q.blue.val : Int) ∧
      (p.blue.val : Int) - (q.blue.val : Int) ≤ 255 := by omega
  have sr := sq_le_sq' hdr.1 hdr.2
  have sg := sq_le_sq' hdg.1 hdg.2
  have sb := sq_le_sq' hdb.1 hdb.2
  have nr := sq_nonneg ((p.red.val : Int) - (q.red.val : Int))
  have ng := sq_nonneg ((p.green.val : Int) - (q.green.val : Int))
  have nb := sq_nonneg ((p.blue.val : Int) - (q.blue.val : Int))
  norm_num at sr sg sb
  have hsum0 : 0 ≤ ((p.red.val : Int) - (q.red.val : Int)) ^ 2 +
      ((p.green.val : Int) - (q.green.val : Int)) ^ 2 +
      ((p.blue.val : Int) - (q.blue.val : Int)) ^ 2 := by linarith
  have hsumu : ((p.red.val : Int) - (q.red.val : Int)) ^ 2 +
      ((p.green.val : Int) - (q.green.val : Int)) ^ 2 +
      ((p.blue.val : Int) - (q.blue.val : Int)) ^ 2 ≤ 195075 := by linarith
  have hcd : color_diff p q =
      (((p.red.val : Int) - (q.red.val : Int)) ^ 2 +
       ((p.green.val : Int) - (q.green.val : Int)) ^ 2 +
       ((p.blue.val : Int) - (q.blue.val : Int)) ^ 2).toNat := by
    show ((((p.red.val : Int) - (q.red.val : Int)) * ((p.red.val : Int) - (q.red.val : Int)) +
        ((p.green.val : Int) - (q.green.val : Int)) * ((p.green.val : Int) - (q.green.val : Int)) +
        ((p.blue.val : Int) - (q.blue.val : Int)) * ((p.blue.val : Int) - (q.blue.val : Int))) %
        (2 : Int) ^ 32).toNat = _
    rw [show (((p.red.val : Int) - (q.red.val : Int)) * ((p.red.val : Int) - (q.red.val : Int)) +
        ((p.green.val : Int) - (q.green.val : Int)) * ((p.green.val : Int) - (q.green.val : Int)) +
        ((p.blue.val : Int) - (q.blue.val : Int)) * ((p.blue.val : Int) - (q.blue.val : Int))) =
        ((p.red.val : Int) - (q.red.val : Int)) ^ 2 +
        ((p.green.val : Int) - (q.green.val : Int)) ^ 2 +
        ((p.blue.val : Int) - (q.blue.val : Int)) ^ 2 by ring]
    rw [Int.emod_eq_of_lt hsum0 (by norm_num; linarith)]
  refine ⟨?_, ?_, by norm_num, hdr, hdg, hdb⟩
  · rw [hcd, Int.toNat_of_nonneg hsum0]
  · rw [hcd]
    norm_num
    omega

/-- Claim C10: channel inversion is an involution: applying `invert` twice
restores the original pixel exactly. -/
theorem claim_C10_invert_involution (p : Pixel) : p.invert.invert = p := by
  obtain ⟨⟨r, hr⟩, ⟨g, hg⟩, ⟨b, hb⟩⟩ := p
  simp only [Pixel.invert, Pixel.mk.injEq, Fin.mk.injEq]
  refine ⟨?_, ?_, ?_⟩ <;> omega

/-! ### Claims C1, C2: the seam_carve loop -/

/-- Claim C1 (divergence witness): on the concrete 3x3 image `imgC1` with
two iterations, the energy matrix handed to endpoint search and seam
tracing in iteration 1 — computed by the code with the constant original
width 3 as bound — holds 25 at cell `(2, 1)` (inside the active bound 2),
while the full recomputation with bound `dimension - k = 2` over the
carved image holds 50 there: the handed grid is not the bound-2
recomputation the claim describes. -/
theorem claim_C1_energy_bound_divergence :
    (seam_carve_vertical_state imgC1 1).2.2 = 2 ∧
    energyHandedV imgC1 1 2 1 = 25 ∧
    calculate_vertical_energy_matrix (seam_carve_vertical_state imgC1 1).1
      (fun _ _ => 0) 2 2 1 = 50 := by
  refine ⟨rfl, ?_, ?_⟩ <;> decide

/-- Claim C2 (divergence witness): `seam_carve` performs no
`InsufficientDimension` check.  On the concrete 2x2 image `imgC2` with
`iterations = 2 = ncols`, the loop runs to completion and mutates the
pixel grid (pixel `(0, 0)` changes), instead of failing before the loop
with the grid unmodified. -/
theorem claim_C2_no_dimension_check :
    imgC2.ncols ≤ 2 ∧
    (seam_carve_vertical_state imgC2 2).1.pixels 0 0 ≠ imgC2.pixels 0 0 := by
  constructor
  · decide
  · decide

/-! ### Claim C4: the trace-step decision table -/

/-- Claim C4: every backward step of the vertical seam trace chooses
exactly as the spec's decision table (`specChoice`) dictates, with `L`,
`A`, `R` the predecessor energies at `c - 1`, `c`, `c + 1`. -/
theorem claim_C4_trace_table (e : Mat) (nrows border start j : Nat)
    (h1 : 1 ≤ j) (h2 : j < nrows) :
    (calculate_optimal_vertical_path e nrows border start).getD (j - 1) 0 =
      specChoice border ((calculate_optimal_vertical_path e nrows border start).getD j 0)
        (e (j - 1) (((calculate_optimal_vertical_path e nrows border start).getD j 0) - 1))
        (e (j - 1) ((calculate_optimal_vertical_path e nrows border start).getD j 0))
        (e (j - 1) (((calculate_optimal_vertical_path e nrows border start).getD j 0) + 1)) := by
  rw [vertical_path_step e nrows border start j h1 h2]
  rfl

/-- Witness for C4 at a concrete input. -/
theorem claim_C4_trace_table_witness :
    1 ≤ 1 ∧ 1 < 2 ∧
    (calculate_optimal_vertical_path eC6 2 2 0).getD (1 - 1) 0 =
      specChoice 2 ((calculate_optimal_vertical_path eC6 2 2 0).getD 1 0)
        (eC6 (1 - 1) (((calculate_optimal_vertical_path eC6 2 2 0).getD 1 0) - 1))
        (eC6 (1 - 1) ((calculate_optimal_vertical_path eC6 2 2 0).getD 1 0))
        (eC6 (1 - 1) (((calculate_optimal_vertical_path eC6 2 2 0).getD 1 0) + 1)) :=
  ⟨by decide, by decide, claim_C4_trace_table eC6 2 2 0 1 (by decide) (by decide)⟩

/-! ### Counterexamples: the border = 1 edge case -/

/-- Counterexample to claim C6 as stated: with `border = 1` the traced
seam can leave the active band.  On the energy matrix `eC6` (2 rows,
`e 0 0 = 1 > 0 = e 0 1`) with `start = 0`, the left-border branch
compares against column 1 — outside the band — and steps to it, so the
seam `[1, 0]` has an entry not in `[0, 1)`. -/
theorem claim_C6_border_one_escape :
    ¬ (∀ x ∈ calculate_optimal_vertical_path eC6 2 1 0, x < 1) := by
  decide

/-- Counterexample to claim C3 as stated: with `border = 1` the cumulative
pass consults column 1, outside the active band.  On the 3x2 image
`imgC3` with a zero-initialised energy matrix, the computed value at the
last-row cell `(2, 0)` is 0, yet the only valid path `[0, 0, 0]` has total
local energy 195075, so the cell does not hold the path minimum. -/
theorem claim_C3_border_one_cex : ¬ VertMinProp imgC3 (fun _ _ => 0) 1 0 := by
  intro h
  obtain ⟨p, hv, hc⟩ := h.2
  obtain ⟨hlen, hmem, _hchain, _hlast⟩ := hv
  have hlen3 : p.length = 3 := by simpa [imgC3] using hlen
  rcases p with _ | ⟨a, _ | ⟨b, _ | ⟨c, _ | t⟩⟩⟩ <;> simp_all
  obtain ⟨ha, hb, hc1⟩ := hmem
  have ha0 : a = 0 := by omega
  have hb0 : b = 0 := by omega
  have hc0 : c = 0 := by omega
  subst ha0; subst hb0; subst hc0
  exact absurd hc (by decide)

/-! ### Characterising the energy computation -/

theorem foldl_write_row (i : Nat) (val : Nat → Nat) (l : List Nat) (e : Mat) (a b : Nat) :
    (l.foldl (fun m j => setM m i j (val j)) e) a b =
      if a = i ∧ b ∈ l then val b else e a b := by
  induction l generalizing e with
  | nil => simp
  | cons x xs ih =>
    simp only [List.foldl_cons, List.mem_cons]
    rw [ih]
    by_cases hmem : a = i ∧ b ∈ xs
    · simp only [hmem.1, hmem.2, and_true, or_true, if_true, true_and]
    · by_cases hx : a = i ∧ b = x
      · simp only [setM, hmem, if_false, hx, and_true, if_true, hx.1, hx.2, true_or, true_and,
          if_pos (And.intro rfl rfl), ite_self]
      · have h1 : ¬(a = i ∧ (b = x ∨ b ∈ xs)) := by tauto
        have h2 : ¬(a = i ∧ b = x) := hx
        simp only [hmem, if_false, setM, h2, h1]

theorem foldl_write_col (jc : Nat) (val : Nat → Nat) (l : List Nat) (e : Mat) (a b : Nat) :
    (l.foldl (fun m i => setM m i jc (val i)) e) a b =
      if a ∈ l ∧ b = jc then val a else e a b := by
  induction l generalizing e with
  | nil => simp
  | cons x xs ih =>
    simp only [List.foldl_cons, List.mem_cons]
    rw [ih]
    by_cases hmem : a ∈ xs ∧ b = jc
    · simp only [hmem.1, hmem.2, and_true, or_true, if_true, true_and]
    · by_cases hx : a = x ∧ b = jc
      · simp only [setM, hmem, if_false, hx, and_true, if_true, hx.1, hx.2, true_or, true_and,
          if_pos (And.intro rfl rfl), ite_self]
      · have h1 : ¬((a = x ∨ a ∈ xs) ∧ b = jc) := by tauto
        have h2 : ¬(a = x ∧ b = jc) := hx
        simp only [hmem, if_false, setM, h2, h1]

theorem foldl_write_grid (val : Nat → Nat → Nat) (il jl : List Nat) (e : Mat) (a b : Nat) :
    (il.foldl (fun m i => jl.foldl (fun m' j => setM m' i j (val i j)) m) e) a b =
      if a ∈ il ∧ b ∈ jl then val a b else e a b := by
  induction il generalizing e with
  | nil => simp
  | cons x xs ih =>
    simp only [List.foldl_cons, List.mem_cons]
    rw [ih]
    by_cases hmem : a ∈ xs ∧ b ∈ jl
    · simp only [hmem.1, hmem.2, and_true, or_true, if_true, true_and]
    · rw [foldl_write_row x (val x) jl e a b]
      by_cases hx : a = x ∧ b ∈ jl
      · simp only [hmem, if_false, hx, and_true, if_true, hx.1, hx.2, true_or, true_and,
          if_pos (And.intro rfl hx.2), ite_self]
      · have h1 : ¬((a = x ∨ a ∈ xs) ∧ b ∈ jl) := by tauto
        simp only [hmem, if_false, hx, h1]

theorem energyRec_row0 (image : Image) (e0 : Mat) (border b : Nat) :
    energyRec image e0 border 0 b = localPass image e0 border 0 b := by
  simp only [energyRec, localPass, localE, eq_self_iff_true, true_and, lt_self_iff_false,
    false_and, false_or, or_false]
  split_ifs <;> first | rfl | omega

theorem energyRec_out (image : Image) (e0 : Mat) (border a b : Nat)
    (h1 : border ≤ b) (h2 : 1 ≤ b) :
    energyRec image e0 border a b = e0 a b := by
  cases a with
  | zero =>
    simp only [energyRec]
    rw [if_neg (by omega), if_neg (by omega)]
  | succ i =>
    simp only [energyRec]
    by_cases h : i + 1 < image.nrows
    · rw [if_pos h, if_neg (by omega), if_neg (by omega)]
    · rw [if_neg h]

theorem local_passes_char (image : Image) (e0 : Mat) (border : Nat) (a b : Nat) :
    vertInnerPass image border
      (vertLeftBorderPass image
        (vertFirstRowPass image border (setM e0 0 0 0))) a b =
    localPass image e0 border a b := by
  simp only [vertInnerPass, vertLeftBorderPass, vertFirstRowPass]
  simp only [foldl_write_grid, foldl_write_col, foldl_write_row, setM_apply]
  simp only [List.mem_range'_1]
  unfold localPass localE
  split_ifs <;> first | rfl | omega

theorem totalVStep_apply (border i : Nat) (e : Mat) (j a b : Nat) :
    totalVStep border i e j a b =
      if a = i ∧ b = j then e i j + mintermM (e (i - 1)) border j else e a b := by
  simp only [totalVStep, mintermM, ite_apply, setM_apply]
  split_ifs <;> first | rfl | omega

theorem totalV_row_char (border i : Nat) (hi : 1 ≤ i) (m : Mat) :
    ∀ k a b, ((List.range k).foldl (totalVStep border i) m) a b =
      if a = i ∧ b < k then m i b + mintermM (m (i - 1)) border b else m a b := by
  intro k
  induction k with
  | zero =>
    intro a b
    simp
  | succ k ih =>
    intro a b
    rw [List.range_succ, List.foldl_append, List.foldl_cons, List.foldl_nil]
    rw [totalVStep_apply]
    have h1 : ((List.range k).foldl (totalVStep border i) m) i k = m i k := by
      rw [ih i k, if_neg (by omega)]
    have h2 : ∀ x, ((List.range k).foldl (totalVStep border i) m) (i - 1) x = m (i - 1) x := by
      intro x
      rw [ih (i - 1) x, if_neg (by omega)]
    have h3 : mintermM (((List.range k).foldl (totalVStep border i) m) (i - 1)) border k =
        mintermM (m (i - 1)) border k := by
      simp only [mintermM, h2]
    rw [h1, h3, ih a b]
    by_cases hab : a = i ∧ b = k
    · rcases hab with ⟨rfl, rfl⟩
      rw [if_pos ⟨rfl, rfl⟩, if_pos ⟨rfl, by omega⟩]
    · rw [if_neg hab]
      by_cases hab2 : a = i ∧ b < k
      · rw [if_pos hab2, if_pos ⟨hab2.1, by omega⟩]
      · rw [if_neg hab2, if_neg (by omega)]

theorem totalV_pass_char (image : Image) (e0 : Mat) (border : Nat) :
    ∀ t, t ≤ image.nrows - 1 →
      ∀ a b,
        ((List.range' 1 t).foldl
            (fun e i => (List.range border).foldl (totalVStep border i) e)
            (localPass image e0 border)) a b =
          if 1 ≤ a ∧ a ≤ t then energyRec image e0 border a b
          else localPass image e0 border a b := by
  intro t
  induction t with
  | zero =>
    intro _ a b
    simp only [List.range'_zero, List.foldl_nil]
    rw [if_neg (by omega)]
  | succ t ih =>
    intro ht a b
    have hn2 : t + 1 < image.nrows := by omega
    have hconcat : List.range' 1 (t + 1) = List.range' 1 t ++ [t + 1] := by
      rw [List.range'_concat]
      simp [Nat.add_comm]
    rw [hconcat, List.foldl_append, List.foldl_cons, List.foldl_nil]
    rw [totalV_row_char border (t + 1) (by omega) _ border a b]
    simp only [Nat.add_sub_cancel]
    have hrow_t : ∀ x, ((List.range' 1 t).foldl
        (fun e i => (List.range border).foldl (totalVStep border i) e)
        (localPass image e0 border)) t x = energyRec image e0 border t x := by
      intro x
      rw [ih (by omega) t x]
      by_cases h1t : 1 ≤ t
      · rw [if_pos ⟨h1t, le_rfl⟩]
      · have ht0 : t = 0 := by omega
        subst ht0
        rw [if_neg (by omega)]
        exact (energyRec_row0 image e0 border x).symm
    have hrow_t1 : ∀ x, ((List.range' 1 t).foldl
        (fun e i => (List.range border).foldl (totalVStep border i) e)
        (localPass image e0 border)) (t + 1) x = localPass image e0 border (t + 1) x := by
      intro x
      rw [ih (by omega) (t + 1) x, if_neg (by omega)]
    have hmc : ∀ b', mintermM (((List.range' 1 t).foldl
        (fun e i => (List.range border).foldl (totalVStep border i) e)
        (localPass image e0 border)) t) border b' =
        mintermM (energyRec image e0 border t) border b' := by
      intro b'
      simp only [mintermM, hrow_t]
    rw [hrow_t1, hmc]
    by_cases hab : a = t + 1 ∧ b < border
    · rcases hab with ⟨rfl, hb⟩
      rw [if_pos ⟨rfl, hb⟩, if_pos ⟨by omega, le_rfl⟩]
      have hlp : localPass image e0 border (t + 1) b = localE image (t + 1) b := by
        unfold localPass
        rw [if_pos (Or.inr (Or.inr ⟨by omega, hn2, Or.inr hb⟩))]
      rw [hlp]
      simp only [energyRec]
      rw [if_pos hn2, if_pos hb]
    · rw [if_neg hab, ih (by omega) a b]
      by_cases hle : 1 ≤ a ∧ a ≤ t
      · rw [if_pos hle, if_pos ⟨hle.1, by omega⟩]
      · rw [if_neg hle]
        by_cases hat : a = t + 1
        · subst hat
          rw [if_pos ⟨by omega, le_rfl⟩]
          have hbb : border ≤ b := by omega
          by_cases hb0 : b = 0
          · subst hb0
            have hbz : border = 0 := by omega
            subst hbz
            simp only [energyRec, localPass, localE, eq_self_iff_true, true_and, and_true,
              lt_self_iff_false, false_and, false_or, or_false]
            split_ifs <;> first | rfl | omega | tauto
          · rw [energyRec_out image e0 border (t + 1) b hbb (by omega)]
            unfold localPass
            rw [if_neg (by omega)]
        · rw [if_neg (by omega)]

theorem vertical_energy_eq (image : Image) (e0 : Mat) (border : Nat) (a b : Nat) :
    calculate_vertical_energy_matrix image e0 border a b = energyRec image e0 border a b := by
  unfold calculate_vertical_energy_matrix vertTotalPass
  have hstart : vertInnerPass image border
      (vertLeftBorderPass image (vertFirstRowPass image border (setM e0 0 0 0))) =
      localPass image e0 border := by
    funext x y
    exact local_passes_char image e0 border x y
  rw [hstart]
  rw [totalV_pass_char image e0 border (image.nrows - 1) le_rfl a b]
  by_cases h : 1 ≤ a ∧ a ≤ image.nrows - 1
  · rw [if_pos h]
  · rw [if_neg h]
    rcases Nat.eq_zero_or_pos a with rfl | ha
    · exact (energyRec_row0 image e0 border b).symm
    · have hge : image.nrows ≤ a := by omega
      cases a with
      | zero => omega
      | succ i =>
        unfold localPass
        rw [if_neg (by omega)]
        simp only [energyRec]
        rw [if_neg (by omega)]

/-! ### Claim C7: causal window of the vertical energy computation -/

theorem localE_congr (img1 img2 : Image) (border i j : Nat) (hj : j < border)
    (hag : ∀ r c, r ≤ i → c < border → img1.pixels r c = img2.pixels r c) :
    localE img1 i j = localE img2 i j := by
  unfold localE
  split_ifs with h1 h2 h3
  · rfl
  · rw [hag 0 j (by omega) hj, hag 0 (j - 1) (by omega) (by omega)]
  · rw [hag i 0 le_rfl (by omega), hag (i - 1) 0 (by omega) (by omega)]
  · rw [hag i j le_rfl hj, hag i (j - 1) le_rfl (by omega), hag (i - 1) j (by omega) hj]

theorem energyRec_congr (img1 img2 : Image) (e0 : Mat) (border : Nat)
    (hrows : img1.nrows = img2.nrows) :
    ∀ i, ∀ j, j < border →
      (∀ r c, r ≤ i → c < border → img1.pixels r c = img2.pixels r c) →
      energyRec img1 e0 border i j = energyRec img2 e0 border i j := by
  intro i
  induction i with
  | zero =>
    intro j hj hag
    simp only [energyRec]
    split_ifs with h1 h2
    · rfl
    · exact localE_congr img1 img2 border 0 j hj hag
  | succ i ih =>
    intro j hj hag
    have hread : ∀ x, x < border →
        energyRec img1 e0 border i x = energyRec img2 e0 border i x :=
      fun x hx => ih x hx (fun r c hr hc => hag r c (by omega) hc)
    have hminterm : mintermM (energyRec img1 e0 border i) border j =
        mintermM (energyRec img2 e0 border i) border j := by
      unfold mintermM
      split_ifs with h0 hb1
      · rw [hread j hj]
        by_cases hb : j + 1 < border
        · rw [hread (j + 1) hb]
        · rw [energyRec_out img1 e0 border i (j + 1) (by omega) (by omega),
            energyRec_out img2 e0 border i (j + 1) (by omega) (by omega)]
      · rw [hread j hj, hread (j - 1) (by omega)]
      · rw [hread j hj, hread (j - 1) (by omega), hread (j + 1) (by omega)]
    simp only [energyRec]
    rw [hrows]
    by_cases hn : i + 1 < img2.nrows
    · rw [if_pos hn, if_pos hn, if_pos hj, if_pos hj,
        localE_congr img1 img2 border (i + 1) j hj hag, hminterm]
    · rw [if_neg hn, if_neg hn]

/-- Claim C7: the vertical energy at `(i, j)` with `j < border` depends
only on pixels in rows `≤ i` and columns `< border`: two same-shaped
images agreeing there get identical values (first conjunct), and changing
any single pixel outside that window leaves the value unchanged (second
conjunct). -/
theorem claim_C7_energy_causality :
    (∀ (img1 img2 : Image) (e0 : Mat) (border i j : Nat),
      img1.nrows = img2.nrows → img1.ncols = img2.ncols → j < border →
      (∀ r c, r ≤ i → c < border → img1.pixels r c = img2.pixels r c) →
      calculate_vertical_energy_matrix img1 e0 border i j =
        calculate_vertical_energy_matrix img2 e0 border i j) ∧
    (∀ (image : Image) (e0 : Mat) (border i j r c : Nat) (p : Pixel),
      j < border → (i < r ∨ border ≤ c) →
      calculate_vertical_energy_matrix (updatePixel image r c p) e0 border i j =
        calculate_vertical_energy_matrix image e0 border i j) := by
  constructor
  · intro img1 img2 e0 border i j hrows _hcols hj hag
    rw [vertical_energy_eq, vertical_energy_eq]
    exact energyRec_congr img1 img2 e0 border hrows i j hj hag
  · intro image e0 border i j r c p hj hout
    have hrows : (updatePixel image r c p).nrows = image.nrows := rfl
    have hag : ∀ r' c', r' ≤ i → c' < border →
        (updatePixel image r c p).pixels r' c' = image.pixels r' c' := by
      intro r' c' hr hc
      unfold updatePixel
      simp only
      rw [if_neg]
      rintro ⟨rfl, rfl⟩
      rcases hout with h | h <;> omega
    rw [vertical_energy_eq, vertical_energy_eq]
    exact energyRec_congr (updatePixel image r c p) image e0 border hrows i j hj hag

/-- Witness for C7 at a concrete input: changing the pixel at `(1, 1)` of
the 2x2 image `imgC2` does not change the energy at `(0, 0)` computed with
`border = 1`. -/
theorem claim_C7_energy_causality_witness :
    calculate_vertical_energy_matrix (updatePixel imgC2 1 1 ⟨0, 0, 0⟩) (fun _ _ => 0) 1 0 0 =
      calculate_vertical_energy_matrix imgC2 (fun _ _ => 0) 1 0 0 :=
  claim_C7_energy_causality.2 imgC2 (fun _ _ => 0) 1 0 0 1 1 ⟨0, 0, 0⟩
    (by decide) (Or.inl (by decide))

/-! ### Claim C3: the cumulative energy as a path minimum -/

theorem pathCost_concat (image : Image) :
    ∀ (q : List Nat) (k x : Nat),
      pathCost image k (q ++ [x]) = pathCost image k q + localE image (k + q.length) x := by
  intro q
  induction q with
  | nil =>
    intro k x
    simp [pathCost]
  | cons a t ih =>
    intro k x
    have h1 : pathCost image k ((a :: t) ++ [x]) =
        localE image k a + pathCost image (k + 1) (t ++ [x]) := rfl
    have h2 : pathCost image k (a :: t) =
        localE image k a + pathCost image (k + 1) t := rfl
    rw [h1, h2, ih (k + 1) x]
    have harg : k + 1 + t.length = k + (a :: t).length := by
      simp only [List.length_cons]
      omega
    rw [harg]
    omega

theorem energyRec_base (image : Image) (e0 : Mat) (border j : Nat) (hj : j < border) :
    energyRec image e0 border 0 j = localE image 0 j := by
  simp only [energyRec, localE, eq_self_iff_true, true_and]
  split_ifs <;> first | rfl | omega

theorem mintermM_le (prev : Nat → Nat) (border j j' : Nat) (hb : 2 ≤ border)
    (hj : j < border) (hj' : j' < border) (hadj : adjStep j' j) :
    mintermM prev border j ≤ prev j' := by
  obtain ⟨h1, h2⟩ := hadj
  unfold mintermM
  split_ifs with h0 hb1
  · have : j' = j ∨ j' = j + 1 := by omega
    rcases this with rfl | h
    · exact min_le_left _ _
    · rw [h]
      exact min_le_right _ _
  · have : j' = j ∨ j' = j - 1 := by omega
    rcases this with rfl | h
    · exact min_le_left _ _
    · rw [h]
      exact min_le_right _ _
  · have : j' = j ∨ j' = j - 1 ∨ j' = j + 1 := by omega
    rcases this with rfl | h | h
    · exact le_trans (min_le_left _ _) (min_le_left _ _)
    · rw [h]
      exact le_trans (min_le_left _ _) (min_le_right _ _)
    · rw [h]
      exact min_le_right _ _

theorem mintermM_attained (prev : Nat → Nat) (border j : Nat) (hb : 2 ≤ border)
    (hj : j < border) :
    ∃ j', j' < border ∧ adjStep j' j ∧ mintermM prev border j = prev j' := by
  unfold mintermM
  split_ifs with h0 hb1
  · rcases le_total (prev j) (prev (j + 1)) with h | h
    · exact ⟨j, hj, ⟨by omega, by omega⟩, min_eq_left h⟩
    · exact ⟨j + 1, by omega, ⟨by omega, by omega⟩, min_eq_right h⟩
  · rcases le_total (prev j) (prev (j - 1)) with h | h
    · exact ⟨j, hj, ⟨by omega, by omega⟩, min_eq_left h⟩
    · exact ⟨j - 1, by omega, ⟨by omega, by omega⟩, min_eq_right h⟩
  · rcases le_total (min (prev j) (prev (j - 1))) (prev (j + 1)) with h | h
    · rcases le_total (prev j) (prev (j - 1)) with h2 | h2
      · exact ⟨j, hj, ⟨by omega, by omega⟩, by rw [min_eq_left h, min_eq_left h2]⟩
      · exact ⟨j - 1, by omega, ⟨by omega, by omega⟩, by rw [min_eq_left h, min_eq_right h2]⟩
    · exact ⟨j + 1, by omega, ⟨by omega, by omega⟩, min_eq_right h⟩

theorem energyRec_path_min (image : Image) (e0 : Mat) (border : Nat) (hb : 2 ≤ border) :
    ∀ i, i < image.nrows → ∀ j, j < border →
      (∀ p, ValidPathTo border i j p → energyRec image e0 border i j ≤ pathCost image 0 p) ∧
      (∃ p, ValidPathTo border i j p ∧ pathCost image 0 p = energyRec image e0 border i j) := by
  intro i
  induction i with
  | zero =>
    intro _ j hj
    constructor
    · intro p hp
      obtain ⟨hlen, hmem, hchain, hlast⟩ := hp
      have hpj : p = [j] := by
        rcases p with _ | ⟨a, _ | ⟨b, t⟩⟩ <;> simp_all
      subst hpj
      rw [energyRec_base image e0 border j hj]
      simp [pathCost]
    · refine ⟨[j], ⟨rfl, ?_, List.chain'_singleton j, rfl⟩, ?_⟩
      · intro x hx
        simp at hx
        subst hx
        exact hj
      · rw [energyRec_base image e0 border j hj]
        simp [pathCost]
  | succ i ih =>
    intro hi1 j hj
    have hi : i < image.nrows := by omega
    have hrec : energyRec image e0 border (i + 1) j =
        localE image (i + 1) j + mintermM (energyRec image e0 border i) border j := by
      simp only [energyRec]
      rw [if_pos hi1, if_pos hj]
    constructor
    · intro p hp
      obtain ⟨hlen, hmem, hchain, hlast⟩ := hp
      have hne : p ≠ [] := by
        intro h
        subst h
        simp only [List.length_nil] at hlen
        omega
      have hsplit : p.dropLast ++ [p.getLast hne] = p := List.dropLast_append_getLast hne
      have hlastj : p.getLast hne = j := by
        have h := List.getLast?_eq_getLast p hne
        rw [h] at hlast
        exact Option.some.inj hlast
      have hqlen : p.dropLast.length = i + 1 := by
        rw [List.length_dropLast, hlen]
        omega
      have hqne : p.dropLast ≠ [] := List.ne_nil_of_length_pos (by omega)
      have hp_eq : p = p.dropLast ++ [j] := by
        conv_lhs => rw [← hsplit]
        rw [hlastj]
      have hsub : ∀ x ∈ p.dropLast, x ∈ p := by
        intro x hx
        rw [hp_eq]
        exact List.mem_append_left _ hx
      have hj'mem : p.dropLast.getLast hqne ∈ p := hsub _ (List.getLast_mem hqne)
      have hj'b : p.dropLast.getLast hqne < border := hmem _ hj'mem
      have hchain2 : List.Chain' adjStep (p.dropLast ++ [j]) := by
        rw [← hp_eq]
        exact hchain
      rw [List.chain'_append] at hchain2
      have hadj : adjStep (p.dropLast.getLast hqne) j := by
        refine hchain2.2.2 _ ?_ j rfl
        exact List.getLast?_eq_getLast _ hqne
      have hqvalid : ValidPathTo border i (p.dropLast.getLast hqne) p.dropLast := by
        refine ⟨hqlen, ?_, hchain2.1, List.getLast?_eq_getLast _ hqne⟩
        intro x hx
        exact hmem x (hsub x hx)
      have hcost : pathCost image 0 p =
          pathCost image 0 p.dropLast + localE image (i + 1) j := by
        conv_lhs => rw [hp_eq]
        rw [pathCost_concat image p.dropLast 0 j, hqlen]
        simp
      rw [hcost, hrec]
      have h1 := (ih hi _ hj'b).1 p.dropLast hqvalid
      have h2 := mintermM_le (energyRec image e0 border i) border j
        (p.dropLast.getLast hqne) hb hj hj'b hadj
      omega
    · obtain ⟨j', hj'b, hadj, hmeq⟩ :=
        mintermM_attained (energyRec image e0 border i) border j hb hj
      obtain ⟨q, hqvalid, hqcost⟩ := (ih hi j' hj'b).2
      obtain ⟨hqlen, hqmem, hqchain, hqlast⟩ := hqvalid
      refine ⟨q ++ [j], ⟨by simp [hqlen], ?_, ?_, List.getLast?_concat q⟩, ?_⟩
      · intro x hx
        rcases List.mem_append.mp hx with h | h
        · exact hqmem x h
        · simp at h
          subst h
          exact hj
      · rw [List.chain'_append]
        refine ⟨hqchain, List.chain'_singleton j, ?_⟩
        intro x hx y hy
        simp at hy
        subst hy
        rw [hqlast] at hx
        simp at hx
        subst hx
        exact hadj
      · rw [pathCost_concat image q 0 j, hqlen, hqcost, hrec, hmeq]
        simp [Nat.add_comm]

/-! ### The horizontal routines as transposes of the vertical ones -/

theorem foldl_swap_rel {α : Type} (F G : Mat → α → Mat) :
    ∀ (l : List α),
      (∀ (m m' : Mat) (x : α), x ∈ l → (∀ a b, m a b = m' b a) →
        ∀ a b, F m x a b = G m' x b a) →
      ∀ (m m' : Mat), (∀ a b, m a b = m' b a) →
        ∀ a b, (l.foldl F m) a b = (l.foldl G m') b a := by
  intro l
  induction l with
  | nil =>
    intro _ m m' hmm a b
    exact hmm a b
  | cons x xs ih =>
    intro h m m' hmm a b
    simp only [List.foldl_cons]
    exact ih (fun m1 m1' y hy => h m1 m1' y (List.mem_cons_of_mem _ hy)) (F m x) (G m' x)
      (h m m' x (List.mem_cons_self _ _) hmm) a b

theorem setM_swap_rel (m m' : Mat) (i j v : Nat) (hmm : ∀ a b, m a b = m' b a) (a b : Nat) :
    setM m i j v a b = setM m' j i v b a := by
  simp only [setM_apply]
  by_cases h1 : a = i <;> by_cases h2 : b = j <;> simp [h1, h2, hmm]

theorem horiz_energy_eq_swap (image : Image) (e0 : Mat) (border : Nat) (a b : Nat) :
    calculate_horizontal_energy_matrix image e0 border a b =
      calculate_vertical_energy_matrix (transposeImage image) (Function.swap e0) border b a := by
  unfold calculate_horizontal_energy_matrix calculate_vertical_energy_matrix
  unfold horizTotalPass vertTotalPass
  refine foldl_swap_rel _ _ _ ?_ _ _ ?_ a b
  · intro m m' x _ hmm a b
    refine foldl_swap_rel _ _ _ ?_ _ _ hmm a b
    intro m1 m1' y _ hmm1 a b
    simp only [totalHStep, totalVStep, ite_apply, setM_apply]
    have hmm1' : ∀ a b, m1' a b = m1 b a := fun a b => (hmm1 b a).symm
    simp only [hmm1']
    split_ifs <;> first | rfl | omega | tauto
  · unfold horizInnerPass vertInnerPass
    refine foldl_swap_rel _ _ _ ?_ _ _ ?_
    · intro m m' x _ hmm a b
      refine foldl_swap_rel _ _ _ ?_ _ _ hmm a b
      intro m1 m1' y _ hmm1 a b
      exact setM_swap_rel m1 m1' y x _ hmm1 a b
    · unfold horizFirstRowPass vertLeftBorderPass
      refine foldl_swap_rel _ _ _ ?_ _ _ ?_
      · intro m m' x _ hmm a b
        exact setM_swap_rel m m' 0 x _ hmm a b
      · unfold horizFirstColPass vertFirstRowPass
        refine foldl_swap_rel _ _ _ ?_ _ _ ?_
        · intro m m' x _ hmm a b
          exact setM_swap_rel m m' x 0 _ hmm a b
        · intro a b
          exact setM_swap_rel e0 (Function.swap e0) 0 0 0 (fun _ _ => rfl) a b

/-- Claim C3 (amended to `border ≥ 2`): after the energy computation with
border at least 2, every last-row cell (vertical) and last-column cell
(horizontal) inside the border holds the minimum total local energy over
all valid monotone paths ending there. -/
theorem claim_C3_energy_path_min :
    (∀ (image : Image) (e0 : Mat) (border j : Nat),
      2 ≤ border → 1 ≤ image.nrows → j < border → VertMinProp image e0 border j) ∧
    (∀ (image : Image) (e0 : Mat) (border j : Nat),
      2 ≤ border → 1 ≤ image.ncols → j < border → HorizMinProp image e0 border j) := by
  constructor
  · intro image e0 border j hb hn hj
    have h := energyRec_path_min image e0 border hb (image.nrows - 1) (by omega) j hj
    constructor
    · intro p hp
      rw [vertical_energy_eq]
      exact h.1 p hp
    · obtain ⟨p, hv, hc⟩ := h.2
      exact ⟨p, hv, by rw [vertical_energy_eq]; exact hc⟩
  · intro image e0 border j hb hn hj
    have h := energyRec_path_min (transposeImage image) (Function.swap e0) border hb
      (image.ncols - 1) (show image.ncols - 1 < image.ncols by omega) j hj
    constructor
    · intro p hp
      rw [horiz_energy_eq_swap, vertical_energy_eq]
      exact h.1 p hp
    · obtain ⟨p, hv, hc⟩ := h.2
      exact ⟨p, hv, by rw [horiz_energy_eq_swap, vertical_energy_eq]; exact hc⟩

/-- Witness for C3 at a concrete input: the 2x2 image `imgC2`, zero
initial matrix, `border = 2`, last-row cell `(1, 0)` and last-column cell
`(0, 1)`. -/
theorem claim_C3_energy_path_min_witness :
    VertMinProp imgC2 (fun _ _ => 0) 2 0 ∧ HorizMinProp imgC2 (fun _ _ => 0) 2 0 :=
  ⟨claim_C3_energy_path_min.1 imgC2 (fun _ _ => 0) 2 0 (by decide) (by decide) (by decide),
   claim_C3_energy_path_min.2 imgC2 (fun _ _ => 0) 2 0 (by decide) (by decide) (by decide)⟩

/-! ### Claim C5: carving a vertical seam -/

theorem carve_row_fold (jrow : Nat) :
    ∀ (n s : Nat) (px : Nat → Nat → Pixel) (a b : Nat),
      ((List.range' s n).foldl
          (fun px i => fun a b =>
            if a = jrow ∧ b = i then
              ⟨(px jrow (i + 1)).red, (px jrow (i + 1)).green, (px jrow (i + 1)).blue⟩
            else px a b)
          px) a b =
        if a = jrow ∧ s ≤ b ∧ b < s + n then px jrow (b + 1) else px a b := by
  intro n
  induction n with
  | zero =>
    intro s px a b
    rw [show List.range' s 0 = [] from rfl, List.foldl_nil, if_neg (by omega)]
  | succ n ih =>
    intro s px a b
    rw [List.range'_succ s n 1, List.foldl_cons, ih (s + 1)]
    show (if a = jrow ∧ s + 1 ≤ b ∧ b < s + 1 + n then
        (if jrow = jrow ∧ b + 1 = s then
          ⟨(px jrow (s + 1)).red, (px jrow (s + 1)).green, (px jrow (s + 1)).blue⟩
        else px jrow (b + 1))
      else
        (if a = jrow ∧ b = s then
          ⟨(px jrow (s + 1)).red, (px jrow (s + 1)).green, (px jrow (s + 1)).blue⟩
        else px a b)) =
      if a = jrow ∧ s ≤ b ∧ b < s + (n + 1) then px jrow (b + 1) else px a b
    by_cases h2 : a = jrow ∧ b = s
    · rw [if_neg (show ¬(a = jrow ∧ s + 1 ≤ b ∧ b < s + 1 + n) by omega), if_pos h2,
        if_pos (show a = jrow ∧ s ≤ b ∧ b < s + (n + 1) by omega), h2.2]
    · by_cases h1 : a = jrow ∧ s + 1 ≤ b ∧ b < s + 1 + n
      · rw [if_pos h1, if_neg (show ¬(jrow = jrow ∧ b + 1 = s) by omega),
          if_pos (show a = jrow ∧ s ≤ b ∧ b < s + (n + 1) by omega)]
      · rw [if_neg h1, if_neg h2,
          if_neg (show ¬(a = jrow ∧ s ≤ b ∧ b < s + (n + 1)) by omega)]

theorem carve_fold_rows (border : Nat) (seam : List Nat) :
    ∀ (n : Nat) (px : Nat → Nat → Pixel) (a b : Nat),
      ((List.range n).foldl
          (fun px j =>
            (List.range' (seam.getD j 0) (border - 1 - seam.getD j 0)).foldl
              (fun px i => fun a b =>
                if a = j ∧ b = i then
                  ⟨(px j (i + 1)).red, (px j (i + 1)).green, (px j (i + 1)).blue⟩
                else px a b)
              px)
          px) a b =
        if a < n ∧ seam.getD a 0 ≤ b ∧ b < border - 1 then px a (b + 1) else px a b := by
  intro n
  induction n with
  | zero =>
    intro px a b
    rw [show List.range 0 = ([] : List Nat) from rfl, List.foldl_nil, if_neg (by omega)]
  | succ n ih =>
    intro px a b
    rw [List.range_succ, List.foldl_append, List.foldl_cons, List.foldl_nil]
    rw [carve_row_fold n (border - 1 - seam.getD n 0) (seam.getD n 0) _ a b]
    rw [ih px n (b + 1),
      if_neg (show ¬(n < n ∧ seam.getD n 0 ≤ b + 1 ∧ b + 1 < border - 1) by omega),
      ih px a b]
    by_cases ha : a = n
    · subst ha
      split_ifs <;> first | rfl | omega
    · rw [if_neg (show ¬(a = n ∧ seam.getD n 0 ≤ b ∧
        b < seam.getD n 0 + (border - 1 - seam.getD n 0)) from fun h => ha h.1)]
      split_ifs <;> first | rfl | omega

theorem carve_vertical_char (image : Image) (border : Nat) (seam : List Nat) (a b : Nat) :
    (carve_vertical_path image border seam).pixels a b =
      if a < image.nrows ∧ seam.getD a 0 ≤ b ∧ b < border - 1 then image.pixels a (b + 1)
      else image.pixels a b := by
  unfold carve_vertical_path
  exact carve_fold_rows border seam image.nrows image.pixels a b

/-- Claim C5: carving a vertical seam with in-border entries deletes, in
every row `j`, the pixel at column `seam[j]` from the active band: columns
below `seam[j]` are unchanged, columns from `seam[j]` to `border - 2` take
their right neighbour's original value (same relative order), columns at
or beyond `border` are unchanged, the matrix dimensions never change, and
the caller's loop (`carveStep`) decrements the active bound by exactly 1. -/
theorem claim_C5_carve_vertical (image : Image) (border : Nat) (seam : List Nat)
    (hb : 1 ≤ border) (hlen : seam.length = image.nrows)
    (hentries : ∀ x ∈ seam, x < border) :
    (∀ j, j < image.nrows → ∀ i,
      (i < seam.getD j 0 →
        (carve_vertical_path image border seam).pixels j i = image.pixels j i) ∧
      (seam.getD j 0 ≤ i → i < border - 1 →
        (carve_vertical_path image border seam).pixels j i = image.pixels j (i + 1)) ∧
      (border ≤ i →
        (carve_vertical_path image border seam).pixels j i = image.pixels j i)) ∧
    (carve_vertical_path image border seam).nrows = image.nrows ∧
    (carve_vertical_path image border seam).ncols = image.ncols ∧
    (∀ (width nrows : Nat) (s : Image × Mat × Nat),
      (carveStep width nrows s).2.2 = s.2.2 - 1) := by
  refine ⟨?_, rfl, rfl, fun _ _ _ => rfl⟩
  intro j hj i
  refine ⟨?_, ?_, ?_⟩
  · intro hlt
    rw [carve_vertical_char, if_neg (by omega)]
  · intro hge hlt
    rw [carve_vertical_char, if_pos ⟨hj, hge, hlt⟩]
  · intro hge
    rw [carve_vertical_char, if_neg (by omega)]

/-- Witness for C5 at a concrete input: the 3x3 image `imgC1` with
`border = 3` and the seam `[0, 0, 0]`. -/
theorem claim_C5_carve_vertical_witness :
    (∀ j, j < imgC1.nrows → ∀ i,
      (i < List.getD [0, 0, 0] j 0 →
        (carve_vertical_path imgC1 3 [0, 0, 0]).pixels j i = imgC1.pixels j i) ∧
      (List.getD [0, 0, 0] j 0 ≤ i → i < 3 - 1 →
        (carve_vertical_path imgC1 3 [0, 0, 0]).pixels j i = imgC1.pixels j (i + 1)) ∧
      (3 ≤ i →
        (carve_vertical_path imgC1 3 [0, 0, 0]).pixels j i = imgC1.pixels j i)) ∧
    (carve_vertical_path imgC1 3 [0, 0, 0]).nrows = imgC1.nrows ∧
    (carve_vertical_path imgC1 3 [0, 0, 0]).ncols = imgC1.ncols ∧
    (∀ (width nrows : Nat) (s : Image × Mat × Nat),
      (carveStep width nrows s).2.2 = s.2.2 - 1) :=
  claim_C5_carve_vertical imgC1 3 [0, 0, 0] (by decide) (by decide) (by decide)

/-! ### Claim C6: seam invariants -/

/-- Claim C6 (amended: every entry lies in `[0, border)` requires
`border ≥ 2`; at `border = 1` the left-border branch can step outside the
band, see the counterexample): a traced seam has length equal to the
orthogonal dimension, adjacent entries differ by at most one, and, for
`border ≥ 2`, every entry lies in `[0, border)` — for both orientations. -/
theorem claim_C6_seam_invariants :
    (∀ (e : Mat) (nrows border start : Nat), 1 ≤ nrows → 1 ≤ border → start < border →
      (calculate_optimal_vertical_path e nrows border start).length = nrows ∧
      (∀ j, 1 ≤ j → j < nrows →
        adjStep ((calculate_optimal_vertical_path e nrows border start).getD (j - 1) 0)
          ((calculate_optimal_vertical_path e nrows border start).getD j 0)) ∧
      (2 ≤ border → ∀ x ∈ calculate_optimal_vertical_path e nrows border start, x < border)) ∧
    (∀ (e : Mat) (ncols border start : Nat), 1 ≤ ncols → 1 ≤ border → start < border →
      (calculate_optimal_horizontal_path e ncols border start).length = ncols ∧
      (∀ j, 1 ≤ j → j < ncols →
        adjStep ((calculate_optimal_horizontal_path e ncols border start).getD (j - 1) 0)
          ((calculate_optimal_horizontal_path e ncols border start).getD j 0)) ∧
      (2 ≤ border → ∀ x ∈ calculate_optimal_horizontal_path e ncols border start,
        x < border)) := by
  have main : ∀ (e : Mat) (n border start : Nat), 1 ≤ n → 1 ≤ border → start < border →
      (calculate_optimal_vertical_path e n border start).length = n ∧
      (∀ j, 1 ≤ j → j < n →
        adjStep ((calculate_optimal_vertical_path e n border start).getD (j - 1) 0)
          ((calculate_optimal_vertical_path e n border start).getD j 0)) ∧
      (2 ≤ border → ∀ x ∈ calculate_optimal_vertical_path e n border start, x < border) := by
    intro e n border start hn _hb hs
    refine ⟨vertical_path_length e n border start, ?_, ?_⟩
    · intro j h1 h2
      rw [vertical_path_step e n border start j h1 h2]
      exact traceStep_adj e border j _
    · intro hb2
      exact vertical_path_mem_lt e n border start hn hb2 hs
  constructor
  · intro e nrows border start
    exact main e nrows border start
  · intro e ncols border start hn hb hs
    rw [horizontal_path_eq_swap]
    exact main (Function.swap e) ncols border start hn hb hs

/-- Witness for C6 at a concrete input: the matrix `eC6`, two rows and two
columns of walk, `border = 2`, `start = 1`. -/
theorem claim_C6_seam_invariants_witness :
    ((calculate_optimal_vertical_path eC6 2 2 1).length = 2 ∧
      (∀ j, 1 ≤ j → j < 2 →
        adjStep ((calculate_optimal_vertical_path eC6 2 2 1).getD (j - 1) 0)
          ((calculate_optimal_vertical_path eC6 2 2 1).getD j 0)) ∧
      (2 ≤ 2 → ∀ x ∈ calculate_optimal_vertical_path eC6 2 2 1, x < 2)) ∧
    ((calculate_optimal_horizontal_path eC6 2 2 1).length = 2 ∧
      (∀ j, 1 ≤ j → j < 2 →
        adjStep ((calculate_optimal_horizontal_path eC6 2 2 1).getD (j - 1) 0)
          ((calculate_optimal_horizontal_path eC6 2 2 1).getD j 0)) ∧
      (2 ≤ 2 → ∀ x ∈ calculate_optimal_horizontal_path eC6 2 2 1, x < 2)) :=
  ⟨claim_C6_seam_invariants.1 eC6 2 2 1 (by decide) (by decide) (by decide),
   claim_C6_seam_invariants.2 eC6 2 2 1 (by decide) (by decide) (by decide)⟩

/-! ### Claim C8: index safety of the trace -/

/-- Counterexample to C8 as stated: with `border = ncols = 1` (allowed by
the claim's `1 ≤ border ≤ width`), `start = 0`, on a 2-row grid, the
single trace step both forms the underflowing left index `seam[j] - 1`
(negative as an integer) and reads the out-of-bounds cell `(0, 1)`. -/
theorem claim_C8_degenerate_cex : ¬ TraceSafeV (fun _ _ => 0) 2 1 1 0 := by
  intro h
  have h1 := h 1 (by omega) (by omega)
  have hped : (calculate_optimal_vertical_path (fun _ _ => 0) 2 1 0).getD 1 0 = 0 := by decide
  rw [hped] at h1
  exact absurd h1 (by unfold SafeStep traceStepFormed traceStepReads; decide)

/-- Claim C8 (amended: only the actual energy reads stay in bounds, and
only for `2 ≤ border ≤` the scan-axis width; the formed-but-unused left
tuple index `seam[j] - 1` underflows whenever the seam sits at 0, and at
`border = width = 1` an out-of-bounds read occurs): under the amended
border invariants every matrix cell read by the trace is in bounds, for
both orientations. -/
theorem claim_C8_reads_in_bounds :
    (∀ (e : Mat) (nrows ncols border start : Nat),
      1 ≤ nrows → 2 ≤ border → border ≤ ncols → start < border →
      ∀ j, 1 ≤ j → j < nrows →
        ∀ q ∈ traceStepReads border j
            ((calculate_optimal_vertical_path e nrows border start).getD j 0),
          q.1 < nrows ∧ q.2 < ncols) ∧
    (∀ (e : Mat) (nrows ncols border start : Nat),
      1 ≤ ncols → 2 ≤ border → border ≤ nrows → start < border →
      ∀ j, 1 ≤ j → j < ncols →
        ∀ q ∈ horizTraceStepReads border j
            ((calculate_optimal_horizontal_path e ncols border start).getD j 0),
          q.1 < nrows ∧ q.2 < ncols) := by
  have mainV : ∀ (border j c : Nat), 2 ≤ border → c < border →
      ∀ q ∈ traceStepReads border j c, q.1 = j - 1 ∧ q.2 < border := by
    intro border j c hb hc q hq
    unfold traceStepReads at hq
    split_ifs at hq with h0 hb1 <;>
      simp only [List.mem_cons, List.mem_singleton, List.not_mem_nil, or_false] at hq
    · rcases hq with rfl | rfl
      · exact ⟨rfl, by omega⟩
      · exact ⟨rfl, by omega⟩
    · rcases hq with rfl | rfl
      · exact ⟨rfl, by omega⟩
      · exact ⟨rfl, by omega⟩
    · rcases hq with rfl | rfl | rfl
      · exact ⟨rfl, by omega⟩
      · exact ⟨rfl, by omega⟩
      · exact ⟨rfl, by omega⟩
  have mainH : ∀ (border j c : Nat), 2 ≤ border → c < border →
      ∀ q ∈ horizTraceStepReads border j c, q.2 = j - 1 ∧ q.1 < border := by
    intro border j c hb hc q hq
    unfold horizTraceStepReads at hq
    split_ifs at hq with h0 hb1 <;>
      simp only [List.mem_cons, List.mem_singleton, List.not_mem_nil, or_false] at hq
    · rcases hq with rfl | rfl
      · exact ⟨rfl, by omega⟩
      · exact ⟨rfl, by omega⟩
    · rcases hq with rfl | rfl
      · exact ⟨rfl, by omega⟩
      · exact ⟨rfl, by omega⟩
    · rcases hq with rfl | rfl | rfl
      · exact ⟨rfl, by omega⟩
      · exact ⟨rfl, by omega⟩
      · exact ⟨rfl, by omega⟩
  constructor
  · intro e nrows ncols border start hn hb hbc hs j h1 h2 q hq
    have hc := vertical_path_entries e nrows border start hn hb hs j h2
    have h := mainV border j _ hb hc q hq
    exact ⟨by omega, by omega⟩
  · intro e nrows ncols border start hn hb hbc hs j h1 h2 q hq
    rw [horizontal_path_eq_swap] at hq
    have hc := vertical_path_entries (Function.swap e) ncols border start hn hb hs j h2
    have h := mainH border j _ hb hc q hq
    exact ⟨by omega, by omega⟩

/-- Witness for C8 at a concrete input: the matrix `eC6`, a 2x2 grid,
`border = 2`, `start = 0`, both orientations. -/
theorem claim_C8_reads_in_bounds_witness :
    (∀ j, 1 ≤ j → j < 2 →
      ∀ q ∈ traceStepReads 2 j ((calculate_optimal_vertical_path eC6 2 2 0).getD j 0),
        q.1 < 2 ∧ q.2 < 2) ∧
    (∀ j, 1 ≤ j → j < 2 →
      ∀ q ∈ horizTraceStepReads 2 j ((calculate_optimal_horizontal_path eC6 2 2 0).getD j 0),
        q.1 < 2 ∧ q.2 < 2) :=
  ⟨claim_C8_reads_in_bounds.1 eC6 2 2 2 0 (by decide) (by decide) (by decide) (by decide),
   claim_C8_reads_in_bounds.2 eC6 2 2 2 0 (by decide) (by decide) (by decide) (by decide)⟩
